import Mathlib

/-!
# Verification of the `SymTable` implementations (COS 217 A3)

Shallow embedding of the hash-table symbol table in `symtablehash.c`
(final revision: `SymTable_tryExpand` + `bindingsCount` field + defensive
key copies) and of the linked-list variant in `symtablelist.c` (final
revision), together with proofs of the specified properties.

Modelling conventions:
* A C string key is modelled as its list of bytes (`List Nat`, one entry
  per `char`, bytes read as unsigned values; the terminating NUL is not
  represented).  Two keys are `strcmp`-equal iff the byte lists are equal.
* A `void *` value is modelled as a machine word (`Nat`); `0` plays the
  role of the NULL pointer, exactly as `NULL` is the "absent" return of
  `SymTable_get` / `SymTable_remove`.
* `size_t` accumulator arithmetic in `SymTable_hash` wraps modulo the
  64-bit word, modelled by an explicit `% 2 ^ 64` at every step.  The
  binding counter is modelled as a plain `Nat`: it tracks the number of
  live binding nodes, which can never reach `2 ^ 64` in an execution.
* `malloc`/`calloc` results are modelled by Boolean allocation oracles
  passed to the operations that allocate (`true` = allocation succeeds).
* Reading `oSymTable->buckets[i]` is modelled by `List.getD i []`; in
  every state the implementation constructs, the index is in range and
  the bucket array length equals `BUCKET_COUNTS[bucketSizeIndex]`, so the
  default is never consulted (the well-formedness predicates below record
  this).  The C loops bounded by `BUCKET_COUNTS[bucketSizeIndex]` are
  modelled as folds over the bucket list, which has exactly that length.
-/

set_option maxRecDepth 100000

/-- 64-bit `size_t` modulus: accumulator arithmetic in the hash wraps here. -/
def wordModulus : Nat := 2 ^ 64

/-- `static const size_t BUCKET_COUNTS[] = {509, 1021, 2039, 4093, 8191,
16381, 32749, 65521};` — the fixed ascending sequence of bucket counts. -/
def BUCKET_COUNTS : List Nat := [509, 1021, 2039, 4093, 8191, 16381, 32749, 65521]

/-- A key: the bytes of the C string (without the terminating NUL). -/
abbrev Key := List Nat

/-- A value: a `void *` modelled as a machine word; `0` is `NULL`. -/
abbrev Val := Nat

/-- `struct Binding` — one key/value pair of a bucket chain.  The `next`
pointer is represented by the position in the enclosing `List Binding`. -/
structure Binding where
  key : Key
  value : Val
deriving DecidableEq, Repr

/-- `struct SymTable` of `symtablehash.c` (final revision): bucket array,
live binding count, and index into `BUCKET_COUNTS`. -/
structure SymTable where
  buckets : List (List Binding)
  bindingsCount : Nat
  bucketSizeIndex : Nat
deriving DecidableEq, Repr

/-- One step `uHash = uHash * HASH_MULTIPLIER + (size_t)pcKey[u]` of the
hash loop, on 64-bit `size_t`. -/
def hashStep (h b : Nat) : Nat := (h * 65599 + b) % wordModulus

/-- The accumulator computed by the `for` loop of `SymTable_hash`. -/
def hashAcc (k : Key) : Nat := k.foldl hashStep 0

/-- `SymTable_hash`: accumulator mod the bucket count. -/
def SymTable_hash (k : Key) (uBucketCount : Nat) : Nat :=
  hashAcc k % uBucketCount

/-- `BUCKET_COUNTS[oSymTable->bucketSizeIndex]` — the current capacity. -/
def bucketCountOf (t : SymTable) : Nat :=
  BUCKET_COUNTS.getD t.bucketSizeIndex 0

/-- The duplicate-scan loop of `SymTable_put` (`while (curr) { if
(strcmp(curr->key, pcKey) == 0) ... }`), and the loop body shared with
`SymTable_contains`. -/
def chainContains : List Binding → Key → Bool
  | [], _ => false
  | b :: rest, k => if b.key = k then true else chainContains rest k

/-- The scan loop of `SymTable_get`: value of the first matching binding,
`0` (NULL) if the chain is exhausted. -/
def lookupChain : List Binding → Key → Val
  | [], _ => 0
  | b :: rest, k => if b.key = k then b.value else lookupChain rest k

/-- The scan of `SymTable_remove` on one chain: head test, then the
`curr->next` walk.  Returns the removed value and the relinked chain, or
`none` when no binding matches (including the empty-chain guard). -/
def removeChain : List Binding → Key → Option (Val × List Binding)
  | [], _ => none
  | b :: rest, k =>
    if b.key = k then some (b.value, rest)
    else
      match removeChain rest k with
      | none => none
      | some (v, rest') => some (v, b :: rest')

/-- The scan of `SymTable_replace` on one chain: overwrite the first
matching binding's value, returning the old value and the new chain. -/
def replaceChain : List Binding → Key → Val → Option (Val × List Binding)
  | [], _, _ => none
  | b :: rest, k, v =>
    if b.key = k then some (b.value, { b with value := v } :: rest)
    else
      match replaceChain rest k v with
      | none => none
      | some (old, rest') => some (old, b :: rest')

/-- Inner rehash loop of `SymTable_tryExpand`: relink every node of one
old chain (head first) onto the front of its new bucket
(`curr->next = newBuckets[hashSlot]; newBuckets[hashSlot] = curr;`). -/
def rehashChain (newCount : Nat) : List Binding → List (List Binding) → List (List Binding)
  | [], acc => acc
  | b :: rest, acc =>
    let slot := SymTable_hash b.key newCount
    rehashChain newCount rest (acc.set slot (b :: acc.getD slot []))

/-- Outer rehash loop of `SymTable_tryExpand`: process every old bucket in
order into a zeroed bucket array of the new capacity. -/
def rehashAll (newCount : Nat) (old : List (List Binding)) : List (List Binding) :=
  old.foldl (fun acc chain => rehashChain newCount chain acc) (List.replicate newCount [])

/-- `SymTable_tryExpand` (`symtablehash.c`, final revision).  `allocOk`
models the `calloc` of the new bucket array. -/
def SymTable_tryExpand (allocOk : Bool) (t : SymTable) : SymTable :=
  if t.bucketSizeIndex ≥ BUCKET_COUNTS.length - 1 then t
  else
    let curBucketCount := BUCKET_COUNTS.getD t.bucketSizeIndex 0
    if t.bindingsCount + 1 ≤ curBucketCount then t
    else if !allocOk then t
    else
      let newBucketSizeIndex := t.bucketSizeIndex + 1
      let newBucketCount := BUCKET_COUNTS.getD newBucketSizeIndex 0
      { buckets := rehashAll newBucketCount t.buckets
        bindingsCount := t.bindingsCount
        bucketSizeIndex := newBucketSizeIndex }

/-- `SymTable_new` (allocation assumed to succeed): 509 empty buckets. -/
def SymTable_new : SymTable :=
  { buckets := List.replicate 509 []
    bindingsCount := 0
    bucketSizeIndex := 0 }

/-- `SymTable_getLength`: returns the stored `bindingsCount`. -/
def SymTable_getLength (t : SymTable) : Nat := t.bindingsCount

/-- `SymTable_put` (`symtablehash.c`, final revision).  The oracles model,
in program order, the `calloc` inside `SymTable_tryExpand` (`growOk`),
the `malloc` of the binding node (`nodeOk`) and the `malloc` of the
defensive key copy (`keyOk`).  Returns the `int` result and the table
state after the call (the C function mutates `oSymTable` in place). -/
def SymTable_put (growOk nodeOk keyOk : Bool) (t : SymTable) (k : Key) (v : Val) :
    Nat × SymTable :=
  let bucketIndex := SymTable_hash k (bucketCountOf t)
  if chainContains (t.buckets.getD bucketIndex []) k then (0, t)
  else
    let t1 := SymTable_tryExpand growOk t
    let bucketIndex1 := SymTable_hash k (bucketCountOf t1)
    if !nodeOk then (0, t1)
    else if !keyOk then (0, t1)
    else
      (1, { buckets := t1.buckets.set bucketIndex1
              (⟨k, v⟩ :: t1.buckets.getD bucketIndex1 [])
            bindingsCount := t1.bindingsCount + 1
            bucketSizeIndex := t1.bucketSizeIndex })

/-- `SymTable_get`: scan the chain of the key's bucket; `0` is NULL. -/
def SymTable_get (t : SymTable) (k : Key) : Val :=
  lookupChain (t.buckets.getD (SymTable_hash k (bucketCountOf t)) []) k

/-- `SymTable_contains`: `1` iff the chain of the key's bucket has it. -/
def SymTable_contains (t : SymTable) (k : Key) : Nat :=
  if chainContains (t.buckets.getD (SymTable_hash k (bucketCountOf t)) []) k then 1 else 0

/-- `SymTable_remove` (final revision, with the empty-chain guard).  The
first component is `some v` when a binding was unlinked (the C return
value is that `v`, or `NULL` when `none`). -/
def SymTable_remove (t : SymTable) (k : Key) : Option Val × SymTable :=
  let bucketIndex := SymTable_hash k (bucketCountOf t)
  match removeChain (t.buckets.getD bucketIndex []) k with
  | none => (none, t)
  | some (v, chain') =>
      (some v, { buckets := t.buckets.set bucketIndex chain'
                 bindingsCount := t.bindingsCount - 1
                 bucketSizeIndex := t.bucketSizeIndex })

/-- `SymTable_replace`: overwrite the value of the first matching binding
in the key's bucket; first component is the old value (`none` = NULL). -/
def SymTable_replace (t : SymTable) (k : Key) (v : Val) : Option Val × SymTable :=
  let bucketIndex := SymTable_hash k (bucketCountOf t)
  match replaceChain (t.buckets.getD bucketIndex []) k v with
  | none => (none, t)
  | some (old, chain') =>
      (some old, { buckets := t.buckets.set bucketIndex chain'
                   bindingsCount := t.bindingsCount
                   bucketSizeIndex := t.bucketSizeIndex })

namespace ListImpl

/-- `struct SymTable` of `symtablelist.c` (final revision): head of one
singly linked list of bindings. -/
structure SymTable where
  first : List Binding
deriving DecidableEq, Repr

/-- `SymTable_new` of the list variant. -/
def SymTable_new : SymTable := { first := [] }

/-- `SymTable_remove` of `symtablelist.c` (final revision).  The code
reads `curr->key` before checking `curr != NULL`: with an empty list the
head pointer is NULL and the dereference is undefined behavior, modelled
by the outer `none`.  On a non-empty list it removes the first match
(head test, then the `curr->next` walk). -/
def SymTable_remove (t : SymTable) (k : Key) : Option (Option Val × SymTable) :=
  match t.first with
  | [] => none
  | b :: rest =>
    if b.key = k then some (some b.value, { first := rest })
    else
      match removeChain rest k with
      | none => some (none, t)
      | some (v, rest') => some (some v, { first := b :: rest' })

end ListImpl

/-! ## Generic bucket-array lemmas -/

/-- Total number of bindings matched by `p` across all buckets. -/
def tcountP (p : Binding → Bool) (ell : List (List Binding)) : Nat :=
  (ell.map (List.countP p)).sum

theorem tcountP_nil (p : Binding → Bool) : tcountP p [] = 0 := rfl

theorem tcountP_cons (p : Binding → Bool) (c : List Binding) (ell : List (List Binding)) :
    tcountP p (c :: ell) = c.countP p + tcountP p ell := by
  simp [tcountP]

theorem tcountP_replicate (p : Binding → Bool) (n : Nat) :
    tcountP p (List.replicate n []) = 0 := by
  induction n with
  | zero => rfl
  | succ m ih => simpa [List.replicate_succ, tcountP_cons] using ih

theorem getD_replicate_nil (n i : Nat) :
    (List.replicate n ([] : List Binding)).getD i [] = [] := by
  induction n generalizing i with
  | zero => cases i <;> rfl
  | succ m ih => cases i with
    | zero => rfl
    | succ j =>
      rw [List.replicate_succ, List.getD_cons_succ]
      exact ih j

theorem getD_set_self (ell : List (List Binding)) (i : Nat) (c : List Binding)
    (h : i < ell.length) : (ell.set i c).getD i [] = c := by
  induction ell generalizing i with
  | nil => simp at h
  | cons hd tl ih =>
    cases i with
    | zero => rfl
    | succ j => exact ih j (by simpa using h)

theorem getD_set_ne (ell : List (List Binding)) (i j : Nat) (c : List Binding)
    (h : i ≠ j) : (ell.set i c).getD j [] = ell.getD j [] := by
  induction ell generalizing i j with
  | nil => cases i <;> rfl
  | cons hd tl ih =>
    cases i with
    | zero => cases j with
      | zero => exact absurd rfl h
      | succ j' => rfl
    | succ i' => cases j with
      | zero => rfl
      | succ j' => exact ih i' j' (fun hh => h (by omega))

theorem tcountP_set (p : Binding → Bool) (ell : List (List Binding)) (i : Nat)
    (c : List Binding) (h : i < ell.length) :
    tcountP p (ell.set i c) + (ell.getD i []).countP p = tcountP p ell + c.countP p := by
  induction ell generalizing i with
  | nil => simp at h
  | cons hd tl ih =>
    cases i with
    | zero =>
      show tcountP p (c :: tl) + ((hd :: tl).getD 0 []).countP p = _
      rw [List.getD_cons_zero, tcountP_cons, tcountP_cons]
      omega
    | succ j =>
      have hj : j < tl.length := by simpa using h
      have := ih j hj
      show tcountP p (hd :: tl.set j c) + _ = _
      rw [List.getD_cons_succ, tcountP_cons, tcountP_cons]
      omega

theorem tcountP_set_cons (p : Binding → Bool) (ell : List (List Binding)) (i : Nat)
    (b : Binding) (h : i < ell.length) :
    tcountP p (ell.set i (b :: ell.getD i [])) =
      (if p b then 1 else 0) + tcountP p ell := by
  have := tcountP_set p ell i (b :: ell.getD i []) h
  rw [List.countP_cons] at this
  omega

theorem countP_getD_le_tcountP (p : Binding → Bool) (ell : List (List Binding)) (i : Nat) :
    (ell.getD i []).countP p ≤ tcountP p ell := by
  induction ell generalizing i with
  | nil => cases i <;> simp [tcountP]
  | cons hd tl ih =>
    cases i with
    | zero =>
      rw [List.getD_cons_zero, tcountP_cons]
      omega
    | succ j =>
      have := ih j
      rw [List.getD_cons_succ, tcountP_cons]
      omega

theorem tcountP_eq_zero_of_all (p : Binding → Bool) (ell : List (List Binding))
    (h0 : ∀ j, j < ell.length → (ell.getD j []).countP p = 0) :
    tcountP p ell = 0 := by
  induction ell with
  | nil => rfl
  | cons hd tl ih =>
    rw [tcountP_cons]
    have hhd : hd.countP p = 0 := by
      have := h0 0 (by simp)
      rwa [List.getD_cons_zero] at this
    have htl : tcountP p tl = 0 := by
      refine ih (fun j hj => ?_)
      have := h0 (j + 1) (by simpa using hj)
      rwa [List.getD_cons_succ] at this
    omega

theorem tcountP_eq_getD_of_others (p : Binding → Bool) (ell : List (List Binding)) (i : Nat)
    (h : i < ell.length)
    (h0 : ∀ j, j < ell.length → j ≠ i → (ell.getD j []).countP p = 0) :
    tcountP p ell = (ell.getD i []).countP p := by
  induction ell generalizing i with
  | nil => simp at h
  | cons hd tl ih =>
    cases i with
    | zero =>
      rw [tcountP_cons, List.getD_cons_zero]
      have htl : tcountP p tl = 0 := by
        refine tcountP_eq_zero_of_all p tl (fun j hj => ?_)
        have := h0 (j + 1) (by simpa using hj) (by omega)
        rwa [List.getD_cons_succ] at this
      omega
    | succ i' =>
      have hhd : hd.countP p = 0 := by
        have := h0 0 (by simp) (by omega)
        rwa [List.getD_cons_zero] at this
      rw [tcountP_cons, hhd, List.getD_cons_succ]
      rw [ih i' (by simpa using h)
        (fun j hj hne => by
          have := h0 (j + 1) (by simpa using hj) (by omega)
          rwa [List.getD_cons_succ] at this)]
      omega

/-! ## Chain-scan lemmas -/

/-- The per-chain matching predicate: `strcmp(curr->key, pcKey) == 0`. -/
def keyIs (k : Key) : Binding → Bool := fun b => decide (b.key = k)

/-- Key and value both match. -/
def bindingIs (k : Key) (v : Val) : Binding → Bool :=
  fun b => decide (b.key = k ∧ b.value = v)

theorem chainContains_eq_false_iff (c : List Binding) (k : Key) :
    chainContains c k = false ↔ c.countP (keyIs k) = 0 := by
  induction c with
  | nil => simp [chainContains]
  | cons b rest ih =>
    rw [chainContains, List.countP_cons]
    by_cases hb : b.key = k
    · simp [hb, keyIs]
    · simp only [hb, if_neg, if_false, keyIs, decide_eq_true_eq, decide_eq_false hb]
      simpa [keyIs] using ih

theorem lookupChain_eq_zero_of_countP (c : List Binding) (k : Key)
    (h : c.countP (keyIs k) = 0) : lookupChain c k = 0 := by
  induction c with
  | nil => rfl
  | cons b rest ih =>
    rw [List.countP_cons] at h
    have hb : b.key ≠ k := by
      intro hb
      simp [keyIs, hb] at h
    rw [lookupChain, if_neg hb]
    exact ih (by omega)

theorem lookupChain_eq_of_unique (c : List Binding) (k : Key) (v : Val)
    (h1 : c.countP (keyIs k) = 1) (h2 : c.countP (bindingIs k v) = 1) :
    lookupChain c k = v := by
  induction c with
  | nil => simp [List.countP_nil] at h1
  | cons b rest ih =>
    by_cases hb : b.key = k
    · rw [lookupChain, if_pos hb]
      by_cases hv : b.value = v
      · exact hv
      · exfalso
        have hb2 : ¬ bindingIs k v b = true := by
          simp [bindingIs, hv]
        have hkb : keyIs k b = true := by simp [keyIs, hb]
        rw [List.countP_cons_of_pos (keyIs k) rest hkb] at h1
        rw [List.countP_cons_of_neg (bindingIs k v) rest hb2] at h2
        have hmono : rest.countP (bindingIs k v) ≤ rest.countP (keyIs k) :=
          List.countP_mono_left (fun x _ hx => by
            simp only [bindingIs, decide_eq_true_eq] at hx
            simp [keyIs, hx.1])
        omega
    · have hb1 : ¬ keyIs k b = true := by simp [keyIs, hb]
      have hb2 : ¬ bindingIs k v b = true := by simp [bindingIs, hb]
      rw [List.countP_cons_of_neg (keyIs k) rest hb1] at h1
      rw [List.countP_cons_of_neg (bindingIs k v) rest hb2] at h2
      rw [lookupChain, if_neg hb]
      exact ih h1 h2

theorem removeChain_eq_none_iff_contains (c : List Binding) (k : Key) :
    removeChain c k = none ↔ chainContains c k = false := by
  induction c with
  | nil => simp [removeChain, chainContains]
  | cons b rest ih =>
    rw [removeChain, chainContains]
    by_cases hb : b.key = k
    · simp [hb]
    · rw [if_neg hb, if_neg hb]
      cases hrec : removeChain rest k with
      | none => simpa [hrec] using ih
      | some p =>
        obtain ⟨v0, r0⟩ := p
        simp only [hrec] at ih
        show some (v0, b :: r0) = none ↔ _
        constructor
        · intro hcon
          exact (Option.some_ne_none _ hcon).elim
        · intro hc
          exact (Option.some_ne_none _ (ih.mpr hc)).elim

theorem removeChain_eq_none_iff (c : List Binding) (k : Key) :
    removeChain c k = none ↔ c.countP (keyIs k) = 0 :=
  (removeChain_eq_none_iff_contains c k).trans (chainContains_eq_false_iff c k)

theorem removeChain_some_facts (c : List Binding) (k : Key) (v : Val) (c' : List Binding)
    (h : removeChain c k = some (v, c')) :
    c.countP (keyIs k) = c'.countP (keyIs k) + 1 ∧
    c.length = c'.length + 1 := by
  induction c generalizing c' with
  | nil => simp [removeChain] at h
  | cons b rest ih =>
    rw [removeChain] at h
    by_cases hb : b.key = k
    · rw [if_pos hb] at h
      injection h with h
      injection h with h1 h2
      subst h1; subst h2
      constructor
      · have hkb : keyIs k b = true := by simp [keyIs, hb]
        rw [List.countP_cons, hkb]
        simp
      · simp
    · rw [if_neg hb] at h
      cases hrec : removeChain rest k with
      | none => rw [hrec] at h; exact absurd h (by simp)
      | some p =>
        obtain ⟨v0, rest'⟩ := p
        rw [hrec] at h
        injection h with h
        injection h with h1 h2
        subst h1
        obtain ⟨ihc, ihl⟩ := ih rest' hrec
        subst h2
        have hb1 : keyIs k b = false := by simp [keyIs, hb]
        constructor
        · rw [List.countP_cons, List.countP_cons, hb1]
          omega
        · simp [ihl]

theorem removeChain_split (pre : List Binding) (k : Key) (v : Val) (post : List Binding)
    (hpre : ∀ b ∈ pre, b.key ≠ k) :
    removeChain (pre ++ ⟨k, v⟩ :: post) k = some (v, pre ++ post) := by
  induction pre with
  | nil => simp [removeChain]
  | cons b rest ih =>
    have hb : b.key ≠ k := hpre b (by simp)
    rw [List.cons_append, removeChain, if_neg hb,
      ih (fun x hx => hpre x (by simp [hx]))]
    rfl

theorem replaceChain_eq_none_iff_contains (c : List Binding) (k : Key) (v : Val) :
    replaceChain c k v = none ↔ chainContains c k = false := by
  induction c with
  | nil => simp [replaceChain, chainContains]
  | cons b rest ih =>
    rw [replaceChain, chainContains]
    by_cases hb : b.key = k
    · simp [hb]
    · rw [if_neg hb, if_neg hb]
      cases hrec : replaceChain rest k v with
      | none => simpa [hrec] using ih
      | some p =>
        obtain ⟨o0, r0⟩ := p
        simp only [hrec] at ih
        show some (o0, b :: r0) = none ↔ _
        constructor
        · intro hcon
          exact (Option.some_ne_none _ hcon).elim
        · intro hc
          exact (Option.some_ne_none _ (ih.mpr hc)).elim

theorem replaceChain_eq_none_iff (c : List Binding) (k : Key) (v : Val) :
    replaceChain c k v = none ↔ c.countP (keyIs k) = 0 :=
  (replaceChain_eq_none_iff_contains c k v).trans (chainContains_eq_false_iff c k)

theorem replaceChain_some_length (c : List Binding) (k : Key) (v old : Val)
    (c' : List Binding) (h : replaceChain c k v = some (old, c')) :
    c.length = c'.length := by
  induction c generalizing c' with
  | nil => simp [replaceChain] at h
  | cons b rest ih =>
    rw [replaceChain] at h
    by_cases hb : b.key = k
    · rw [if_pos hb] at h
      injection h with h
      injection h with h1 h2
      subst h2
      simp
    · rw [if_neg hb] at h
      cases hrec : replaceChain rest k v with
      | none => rw [hrec] at h; exact absurd h (by simp)
      | some p =>
        obtain ⟨o, rest'⟩ := p
        rw [hrec] at h
        injection h with h
        injection h with h1 h2
        subst h1
        subst h2
        simpa using ih rest' hrec

/-! ## Well-formedness of a table state -/

/-- Number of bindings with key `k` anywhere in the table. -/
def kcount (k : Key) (t : SymTable) : Nat := tcountP (keyIs k) t.buckets

/-- Number of bindings with key `k` and value `v` anywhere in the table. -/
def bcount (k : Key) (v : Val) (t : SymTable) : Nat := tcountP (bindingIs k v) t.buckets

/-- Number of binding nodes reachable from the bucket array. -/
def totalBindings (t : SymTable) : Nat := tcountP (fun _ => true) t.buckets

/-- The size index is in range and the bucket array has exactly
`BUCKET_COUNTS[bucketSizeIndex]` buckets — true of every table the
implementation constructs. -/
def WFlen (t : SymTable) : Prop :=
  t.bucketSizeIndex < BUCKET_COUNTS.length ∧ t.buckets.length = bucketCountOf t

/-- Every binding of chain `i` hashes to `i` under bucket count `n`. -/
def placedChain (n i : Nat) (c : List Binding) : Prop :=
  ∀ b ∈ c, SymTable_hash b.key n = i

/-- Every binding sits in the bucket its key hashes to under the current
bucket count. -/
def WFplace (t : SymTable) : Prop :=
  ∀ i, i < t.buckets.length → placedChain t.buckets.length i (t.buckets.getD i [])

/-- The stored `bindingsCount` equals the number of reachable bindings. -/
def WFcount (t : SymTable) : Prop := t.bindingsCount = totalBindings t

theorem BUCKET_COUNTS_length : BUCKET_COUNTS.length = 8 := rfl

theorem BUCKET_COUNTS_pos :
    ∀ j, j < BUCKET_COUNTS.length → 0 < BUCKET_COUNTS.getD j 0 := by decide

theorem bucketCountOf_pos (t : SymTable) (h : t.bucketSizeIndex < BUCKET_COUNTS.length) :
    0 < bucketCountOf t := BUCKET_COUNTS_pos t.bucketSizeIndex h

theorem chainContains_false_of_kcount_zero (t : SymTable) (k : Key)
    (h : kcount k t = 0) :
    chainContains (t.buckets.getD (SymTable_hash k (bucketCountOf t)) []) k = false := by
  rw [chainContains_eq_false_iff]
  have hle := countP_getD_le_tcountP (keyIs k) t.buckets (SymTable_hash k (bucketCountOf t))
  rw [kcount] at h
  omega

/-! ## Rehash lemmas -/

theorem length_rehashChain (n : Nat) (c : List Binding) (acc : List (List Binding)) :
    (rehashChain n c acc).length = acc.length := by
  induction c generalizing acc with
  | nil => rfl
  | cons b rest ih =>
    rw [rehashChain]
    rw [ih]
    exact List.length_set ..

theorem length_rehashAll (n : Nat) (old : List (List Binding)) :
    (rehashAll n old).length = n := by
  rw [rehashAll]
  have : ∀ (old acc : List (List Binding)),
      (old.foldl (fun acc chain => rehashChain n chain acc) acc).length = acc.length := by
    intro old
    induction old with
    | nil => intro acc; rfl
    | cons c rest ih =>
      intro acc
      rw [List.foldl_cons, ih, length_rehashChain]
  rw [this]
  exact List.length_replicate ..

theorem tcountP_rehashChain (p : Binding → Bool) (n : Nat) (c : List Binding)
    (acc : List (List Binding)) (hlen : acc.length = n) (hn : 0 < n) :
    tcountP p (rehashChain n c acc) = c.countP p + tcountP p acc := by
  induction c generalizing acc with
  | nil => simp [rehashChain]
  | cons b rest ih =>
    rw [rehashChain]
    have hslot : SymTable_hash b.key n < acc.length := by
      rw [hlen]
      exact Nat.mod_lt _ hn
    rw [ih _ (by rw [List.length_set]; exact hlen)]
    rw [tcountP_set_cons p acc _ b hslot]
    rw [List.countP_cons]
    omega

theorem tcountP_rehashAll (p : Binding → Bool) (n : Nat) (old : List (List Binding))
    (hn : 0 < n) : tcountP p (rehashAll n old) = tcountP p old := by
  rw [rehashAll]
  have : ∀ (old acc : List (List Binding)), acc.length = n →
      tcountP p (old.foldl (fun acc chain => rehashChain n chain acc) acc) =
        tcountP p old + tcountP p acc := by
    intro old
    induction old with
    | nil => intro acc _; simp [tcountP]
    | cons c rest ih =>
      intro acc hacc
      rw [List.foldl_cons, ih _ (by rw [length_rehashChain]; exact hacc),
        tcountP_rehashChain p n c acc hacc hn, tcountP_cons]
      omega
  rw [this _ _ (List.length_replicate ..), tcountP_replicate]
  omega

theorem placed_rehashChain (n : Nat) (c : List Binding) (acc : List (List Binding))
    (hlen : acc.length = n) (hn : 0 < n)
    (hacc : ∀ i, i < n → placedChain n i (acc.getD i [])) :
    ∀ i, i < n → placedChain n i ((rehashChain n c acc).getD i []) := by
  induction c generalizing acc with
  | nil => exact hacc
  | cons b rest ih =>
    rw [rehashChain]
    have hslot : SymTable_hash b.key n < acc.length := by
      rw [hlen]
      exact Nat.mod_lt _ hn
    refine ih _ (by rw [List.length_set]; exact hlen) (fun i hi => ?_)
    by_cases hieq : SymTable_hash b.key n = i
    · subst hieq
      rw [getD_set_self acc _ _ hslot]
      intro x hx
      rcases List.mem_cons.mp hx with hx1 | hx2
      · subst hx1; rfl
      · exact hacc _ hi x hx2
    · rw [getD_set_ne acc _ _ _ hieq]
      exact hacc i hi

theorem placed_rehashAll (n : Nat) (old : List (List Binding)) (hn : 0 < n) :
    ∀ i, i < n → placedChain n i ((rehashAll n old).getD i []) := by
  rw [rehashAll]
  have : ∀ (old acc : List (List Binding)), acc.length = n →
      (∀ i, i < n → placedChain n i (acc.getD i [])) →
      ∀ i, i < n →
        placedChain n i ((old.foldl (fun acc chain => rehashChain n chain acc) acc).getD i []) := by
    intro old
    induction old with
    | nil => intro acc _ hacc; exact hacc
    | cons c rest ih =>
      intro acc hacc hplaced
      rw [List.foldl_cons]
      exact ih _ (by rw [length_rehashChain]; exact hacc)
        (placed_rehashChain n c acc hacc hn hplaced)
  refine this _ _ (List.length_replicate ..) (fun i hi => ?_)
  rw [getD_replicate_nil]
  intro b hb
  simp at hb

/-! ## `SymTable_tryExpand` preservation lemmas -/

theorem tryExpand_bindingsCount (g : Bool) (t : SymTable) :
    (SymTable_tryExpand g t).bindingsCount = t.bindingsCount := by
  simp only [SymTable_tryExpand]
  split_ifs <;> rfl

theorem tryExpand_tcountP (g : Bool) (t : SymTable) (p : Binding → Bool) :
    tcountP p (SymTable_tryExpand g t).buckets = tcountP p t.buckets := by
  simp only [SymTable_tryExpand]
  split_ifs with h1 h2 h3
  · rfl
  · rfl
  · rfl
  · refine tcountP_rehashAll p _ t.buckets ?_
    refine BUCKET_COUNTS_pos _ ?_
    rw [BUCKET_COUNTS_length] at h1 ⊢
    omega

theorem tryExpand_WFlen (g : Bool) (t : SymTable) (h : WFlen t) :
    WFlen (SymTable_tryExpand g t) := by
  simp only [SymTable_tryExpand]
  split_ifs with h1 h2 h3
  · exact h
  · exact h
  · exact h
  · constructor
    · show t.bucketSizeIndex + 1 < BUCKET_COUNTS.length
      rw [BUCKET_COUNTS_length] at h1 ⊢
      omega
    · show (rehashAll _ t.buckets).length = _
      rw [length_rehashAll]
      rfl

theorem tryExpand_WFplace (g : Bool) (t : SymTable) (h : WFplace t) :
    WFplace (SymTable_tryExpand g t) := by
  simp only [SymTable_tryExpand]
  split_ifs with h1 h2 h3
  · exact h
  · exact h
  · exact h
  · intro i hi
    have hn : 0 < BUCKET_COUNTS.getD (t.bucketSizeIndex + 1) 0 := by
      refine BUCKET_COUNTS_pos _ ?_
      rw [BUCKET_COUNTS_length] at h1 ⊢
      omega
    have hlen : (rehashAll (BUCKET_COUNTS.getD (t.bucketSizeIndex + 1) 0)
        t.buckets).length = BUCKET_COUNTS.getD (t.bucketSizeIndex + 1) 0 :=
      length_rehashAll ..
    show placedChain _ i _
    simp only at hi ⊢
    rw [hlen] at hi ⊢
    exact placed_rehashAll _ t.buckets hn i hi

theorem tryExpand_eq_self_of_le (g : Bool) (t : SymTable)
    (hle : t.bindingsCount + 1 ≤ BUCKET_COUNTS.getD t.bucketSizeIndex 0) :
    SymTable_tryExpand g t = t := by
  simp only [SymTable_tryExpand]
  split_ifs with h1
  · rfl
  · rfl

theorem tryExpand_sizeIndex (g : Bool) (t : SymTable) :
    (SymTable_tryExpand g t).bucketSizeIndex =
      if t.bucketSizeIndex < BUCKET_COUNTS.length - 1 ∧
          BUCKET_COUNTS.getD t.bucketSizeIndex 0 < t.bindingsCount + 1 ∧ g = true
      then t.bucketSizeIndex + 1
      else t.bucketSizeIndex := by
  by_cases hA : t.bucketSizeIndex < BUCKET_COUNTS.length - 1 ∧
      BUCKET_COUNTS.getD t.bucketSizeIndex 0 < t.bindingsCount + 1 ∧ g = true
  · rw [if_pos hA]
    obtain ⟨a1, a2, a3⟩ := hA
    simp only [SymTable_tryExpand]
    rw [if_neg (by omega), if_neg (by omega), a3]
    rw [if_neg (by simp)]
  · rw [if_neg hA]
    simp only [SymTable_tryExpand]
    split_ifs with h1 h2 h3
    · rfl
    · rfl
    · rfl
    · exfalso
      refine hA ⟨by omega, by omega, ?_⟩
      revert h3
      cases g <;> simp

/-! ## `SymTable_put` case lemmas -/

theorem hash_lt_of_WFlen (t : SymTable) (k : Key) (h : WFlen t) :
    SymTable_hash k (bucketCountOf t) < t.buckets.length := by
  rw [h.2]
  exact Nat.mod_lt _ (bucketCountOf_pos t h.1)

theorem put_dup (g nk ko : Bool) (t : SymTable) (k : Key) (v : Val)
    (h : chainContains (t.buckets.getD (SymTable_hash k (bucketCountOf t)) []) k = true) :
    SymTable_put g nk ko t k v = (0, t) := by
  simp only [SymTable_put]
  rw [if_pos h]

theorem put_nodeFail (g ko : Bool) (t : SymTable) (k : Key) (v : Val)
    (h : chainContains (t.buckets.getD (SymTable_hash k (bucketCountOf t)) []) k = false) :
    SymTable_put g false ko t k v = (0, SymTable_tryExpand g t) := by
  simp only [SymTable_put]
  rw [if_neg (by rw [h]; simp), if_pos (show (!false) = true from rfl)]

theorem put_keyFail (g : Bool) (t : SymTable) (k : Key) (v : Val)
    (h : chainContains (t.buckets.getD (SymTable_hash k (bucketCountOf t)) []) k = false) :
    SymTable_put g true false t k v = (0, SymTable_tryExpand g t) := by
  simp only [SymTable_put]
  rw [if_neg (by rw [h]; simp), if_neg (show ¬ (!true) = true by simp),
    if_pos (show (!false) = true from rfl)]

theorem put_success (g : Bool) (t : SymTable) (k : Key) (v : Val)
    (h : chainContains (t.buckets.getD (SymTable_hash k (bucketCountOf t)) []) k = false) :
    SymTable_put g true true t k v =
      (1, { buckets := (SymTable_tryExpand g t).buckets.set
              (SymTable_hash k (bucketCountOf (SymTable_tryExpand g t)))
              (⟨k, v⟩ :: (SymTable_tryExpand g t).buckets.getD
                (SymTable_hash k (bucketCountOf (SymTable_tryExpand g t))) [])
            bindingsCount := (SymTable_tryExpand g t).bindingsCount + 1
            bucketSizeIndex := (SymTable_tryExpand g t).bucketSizeIndex }) := by
  simp only [SymTable_put]
  rw [if_neg (by rw [h]; simp), if_neg (show ¬ (!true) = true by simp),
    if_neg (show ¬ (!true) = true by simp)]

theorem put_success_tcountP (g : Bool) (t : SymTable) (k : Key) (v : Val)
    (p : Binding → Bool) (hwf : WFlen t)
    (h : chainContains (t.buckets.getD (SymTable_hash k (bucketCountOf t)) []) k = false) :
    tcountP p (SymTable_put g true true t k v).2.buckets =
      (if p ⟨k, v⟩ then 1 else 0) + tcountP p t.buckets := by
  rw [put_success g t k v h]
  have hwf1 := tryExpand_WFlen g t hwf
  have hlt := hash_lt_of_WFlen (SymTable_tryExpand g t) k hwf1
  show tcountP p ((SymTable_tryExpand g t).buckets.set _ _) = _
  rw [tcountP_set_cons p _ _ _ hlt, tryExpand_tcountP]

theorem put_success_bindingsCount (g : Bool) (t : SymTable) (k : Key) (v : Val)
    (h : chainContains (t.buckets.getD (SymTable_hash k (bucketCountOf t)) []) k = false) :
    (SymTable_put g true true t k v).2.bindingsCount = t.bindingsCount + 1 := by
  rw [put_success g t k v h]
  show (SymTable_tryExpand g t).bindingsCount + 1 = _
  rw [tryExpand_bindingsCount]

theorem put_success_WFlen (g : Bool) (t : SymTable) (k : Key) (v : Val)
    (hwf : WFlen t)
    (h : chainContains (t.buckets.getD (SymTable_hash k (bucketCountOf t)) []) k = false) :
    WFlen (SymTable_put g true true t k v).2 := by
  rw [put_success g t k v h]
  have hwf1 := tryExpand_WFlen g t hwf
  constructor
  · exact hwf1.1
  · show ((SymTable_tryExpand g t).buckets.set _ _).length = _
    rw [List.length_set]
    exact hwf1.2

theorem put_success_WFplace (g : Bool) (t : SymTable) (k : Key) (v : Val)
    (hwf : WFlen t) (hp : WFplace t)
    (h : chainContains (t.buckets.getD (SymTable_hash k (bucketCountOf t)) []) k = false) :
    WFplace (SymTable_put g true true t k v).2 := by
  rw [put_success g t k v h]
  have hwf1 := tryExpand_WFlen g t hwf
  have hp1 := tryExpand_WFplace g t hp
  have hlt := hash_lt_of_WFlen (SymTable_tryExpand g t) k hwf1
  intro i hi
  show placedChain _ i _
  simp only [List.length_set] at hi ⊢
  by_cases hieq : SymTable_hash k (bucketCountOf (SymTable_tryExpand g t)) = i
  · subst hieq
    rw [getD_set_self _ _ _ hlt]
    intro b hb
    rcases List.mem_cons.mp hb with hb1 | hb2
    · subst hb1
      show SymTable_hash k (SymTable_tryExpand g t).buckets.length = _
      rw [hwf1.2]
    · exact hp1 _ hlt b hb2
  · rw [getD_set_ne _ _ _ _ hieq]
    exact hp1 i hi

/-! ## `SymTable_remove` / `SymTable_replace` case lemmas -/

theorem remove_none (t : SymTable) (k : Key)
    (h : removeChain (t.buckets.getD (SymTable_hash k (bucketCountOf t)) []) k = none) :
    SymTable_remove t k = (none, t) := by
  simp only [SymTable_remove]
  rw [h]

theorem remove_some (t : SymTable) (k : Key) (v : Val) (c' : List Binding)
    (h : removeChain (t.buckets.getD (SymTable_hash k (bucketCountOf t)) []) k =
      some (v, c')) :
    SymTable_remove t k =
      (some v, { buckets := t.buckets.set (SymTable_hash k (bucketCountOf t)) c'
                 bindingsCount := t.bindingsCount - 1
                 bucketSizeIndex := t.bucketSizeIndex }) := by
  simp only [SymTable_remove]
  rw [h]

theorem replace_none (t : SymTable) (k : Key) (v : Val)
    (h : replaceChain (t.buckets.getD (SymTable_hash k (bucketCountOf t)) []) k v = none) :
    SymTable_replace t k v = (none, t) := by
  simp only [SymTable_replace]
  rw [h]

theorem replace_some (t : SymTable) (k : Key) (v old : Val) (c' : List Binding)
    (h : replaceChain (t.buckets.getD (SymTable_hash k (bucketCountOf t)) []) k v =
      some (old, c')) :
    SymTable_replace t k v =
      (some old, { buckets := t.buckets.set (SymTable_hash k (bucketCountOf t)) c'
                   bindingsCount := t.bindingsCount
                   bucketSizeIndex := t.bucketSizeIndex }) := by
  simp only [SymTable_replace]
  rw [h]

theorem countP_trivial (l : List Binding) : l.countP (fun _ => true) = l.length := by
  induction l with
  | nil => rfl
  | cons b rest ih => rw [List.countP_cons, ih]; simp

/-! ## Retrieval from a well-formed table -/

theorem get_of_unique (t : SymTable) (k : Key) (v : Val)
    (hwf : WFlen t) (hp : WFplace t)
    (h1 : kcount k t = 1) (h2 : bcount k v t = 1) :
    SymTable_get t k = v := by
  have hlt : SymTable_hash k (bucketCountOf t) < t.buckets.length :=
    hash_lt_of_WFlen t k hwf
  have hzero : ∀ j, j < t.buckets.length → j ≠ SymTable_hash k (bucketCountOf t) →
      (t.buckets.getD j []).countP (keyIs k) = 0 := by
    intro j hj hne
    rw [List.countP_eq_zero]
    intro b hb hbk
    simp only [keyIs, decide_eq_true_eq] at hbk
    have hplaced := hp j hj b hb
    rw [hbk, hwf.2] at hplaced
    exact hne hplaced.symm
  have hzero2 : ∀ j, j < t.buckets.length → j ≠ SymTable_hash k (bucketCountOf t) →
      (t.buckets.getD j []).countP (bindingIs k v) = 0 := by
    intro j hj hne
    have hle : (t.buckets.getD j []).countP (bindingIs k v) ≤
        (t.buckets.getD j []).countP (keyIs k) :=
      List.countP_mono_left (fun x _ hx => by
        simp only [bindingIs, decide_eq_true_eq] at hx
        simp [keyIs, hx.1])
    have := hzero j hj hne
    omega
  have hc1 : (t.buckets.getD (SymTable_hash k (bucketCountOf t)) []).countP (keyIs k) = 1 := by
    have := tcountP_eq_getD_of_others (keyIs k) t.buckets _ hlt hzero
    rw [kcount] at h1
    omega
  have hc2 : (t.buckets.getD (SymTable_hash k (bucketCountOf t)) []).countP
      (bindingIs k v) = 1 := by
    have := tcountP_eq_getD_of_others (bindingIs k v) t.buckets _ hlt hzero2
    rw [bcount] at h2
    omega
  exact lookupChain_eq_of_unique _ k v hc1 hc2

/-! ## Sequences of successful insertions -/

/-- Run a sequence of `SymTable_put` calls (all allocations succeeding). -/
def runPuts (kvs : List (Key × Val)) (t : SymTable) : SymTable :=
  kvs.foldl (fun t kv => (SymTable_put true true true t kv.1 kv.2).2) t

theorem runPuts_cons (kv : Key × Val) (kvs : List (Key × Val)) (t : SymTable) :
    runPuts (kv :: kvs) t = runPuts kvs (SymTable_put true true true t kv.1 kv.2).2 := rfl

theorem put_success_sizeIndex (g : Bool) (t : SymTable) (k : Key) (v : Val)
    (h : chainContains (t.buckets.getD (SymTable_hash k (bucketCountOf t)) []) k = false) :
    (SymTable_put g true true t k v).2.bucketSizeIndex =
      (SymTable_tryExpand g t).bucketSizeIndex := by
  rw [put_success g t k v h]

theorem runPuts_master (kvs : List (Key × Val)) :
    ∀ t : SymTable, WFlen t → WFplace t → (kvs.map Prod.fst).Nodup →
    (∀ kv ∈ kvs, kcount kv.1 t = 0) →
    WFlen (runPuts kvs t) ∧ WFplace (runPuts kvs t) ∧
    (∀ p : Binding → Bool, tcountP p (runPuts kvs t).buckets =
      kvs.countP (fun kv => p ⟨kv.1, kv.2⟩) + tcountP p t.buckets) ∧
    (runPuts kvs t).bindingsCount = t.bindingsCount + kvs.length := by
  induction kvs with
  | nil =>
    intro t h1 h2 _ _
    exact ⟨h1, h2, fun p => by simp [runPuts], by simp [runPuts]⟩
  | cons kv rest ih =>
    intro t hwf hp hnd hfresh
    obtain ⟨k, v⟩ := kv
    have hk0 : kcount k t = 0 := hfresh (k, v) (by simp)
    have hcc := chainContains_false_of_kcount_zero t k hk0
    have hwf' := put_success_WFlen true t k v hwf hcc
    have hp' := put_success_WFplace true t k v hwf hp hcc
    have hnd' : (rest.map Prod.fst).Nodup := (List.nodup_cons.mp (by simpa using hnd)).2
    have hknotin : k ∉ rest.map Prod.fst := (List.nodup_cons.mp (by simpa using hnd)).1
    have hfresh' : ∀ kv' ∈ rest, kcount kv'.1 (SymTable_put true true true t k v).2 = 0 := by
      intro kv' hkv'
      have hprev : kcount kv'.1 t = 0 := hfresh kv' (by simp [hkv'])
      have hne : keyIs kv'.1 ⟨k, v⟩ = false := by
        simp only [keyIs, decide_eq_false_iff_not]
        intro hcon
        refine hknotin ?_
        rw [hcon]
        exact List.mem_map_of_mem Prod.fst hkv'
      rw [kcount, put_success_tcountP true t k v (keyIs kv'.1) hwf hcc, hne]
      simp only [Bool.false_eq_true, if_false]
      rw [kcount] at hprev
      simpa using hprev
    obtain ⟨ihwf, ihp, ihcount, ihlen⟩ := ih _ hwf' hp' hnd' hfresh'
    refine ⟨by rwa [runPuts_cons], by rwa [runPuts_cons], ?_, ?_⟩
    · intro p
      rw [runPuts_cons, ihcount p, put_success_tcountP true t k v p hwf hcc]
      simp only [List.countP_cons]
      by_cases hpb : p ⟨k, v⟩ = true
      · simp [hpb]
        omega
      · rw [Bool.not_eq_true] at hpb
        simp [hpb]
    · rw [runPuts_cons, ihlen, put_success_bindingsCount true t k v hcc]
      simp
      omega

theorem WFlen_new : WFlen SymTable_new := by
  constructor
  · show (0 : Nat) < BUCKET_COUNTS.length
    decide
  · show (List.replicate 509 ([] : List Binding)).length = _
    rw [List.length_replicate]
    rfl

theorem WFplace_new : WFplace SymTable_new := by
  intro i hi
  show placedChain _ i ((List.replicate 509 ([] : List Binding)).getD i [])
  rw [getD_replicate_nil]
  intro b hb
  exact absurd hb (List.not_mem_nil b)

theorem kcount_new (k : Key) : kcount k SymTable_new = 0 := tcountP_replicate _ 509

theorem tcountP_new (p : Binding → Bool) : tcountP p SymTable_new.buckets = 0 :=
  tcountP_replicate p 509

theorem countP_keyIs_of_nodup (kvs : List (Key × Val)) :
    ∀ (k : Key) (v : Val), (k, v) ∈ kvs → (kvs.map Prod.fst).Nodup →
    kvs.countP (fun kv => keyIs k ⟨kv.1, kv.2⟩) = 1 ∧
    kvs.countP (fun kv => bindingIs k v ⟨kv.1, kv.2⟩) = 1 := by
  induction kvs with
  | nil =>
    intro k v hmem _
    exact absurd hmem (List.not_mem_nil _)
  | cons hd rest ih =>
    intro k v hmem hnd
    have hnd' : (rest.map Prod.fst).Nodup := (List.nodup_cons.mp (by simpa using hnd)).2
    have hnotin : hd.1 ∉ rest.map Prod.fst := (List.nodup_cons.mp (by simpa using hnd)).1
    rcases List.mem_cons.mp hmem with heq | hmem'
    · have hrest0 : rest.countP (fun kv => keyIs k ⟨kv.1, kv.2⟩) = 0 := by
        rw [List.countP_eq_zero]
        intro kv hkv hcon
        simp only [keyIs, decide_eq_true_eq] at hcon
        refine hnotin ?_
        rw [← heq]
        simp only []
        rw [← hcon]
        exact List.mem_map_of_mem Prod.fst hkv
      have hrest0' : rest.countP (fun kv => bindingIs k v ⟨kv.1, kv.2⟩) = 0 := by
        have hle : rest.countP (fun kv => bindingIs k v ⟨kv.1, kv.2⟩) ≤
            rest.countP (fun kv => keyIs k ⟨kv.1, kv.2⟩) :=
          List.countP_mono_left (fun x _ hx => by
            simp only [bindingIs, decide_eq_true_eq] at hx
            simp [keyIs, hx.1])
        omega
      constructor
      · rw [List.countP_cons_of_pos _ rest (by rw [← heq]; simp [keyIs]), hrest0]
      · rw [List.countP_cons_of_pos _ rest (by rw [← heq]; simp [bindingIs]), hrest0']
    · have hne : hd.1 ≠ k := by
        intro hcon
        refine hnotin ?_
        rw [hcon]
        exact List.mem_map_of_mem Prod.fst hmem'
      obtain ⟨ih1, ih2⟩ := ih k v hmem' hnd'
      constructor
      · rw [List.countP_cons_of_neg _ rest (by simp [keyIs, hne]), ih1]
      · rw [List.countP_cons_of_neg _ rest (by simp [bindingIs, hne]), ih2]

theorem runPuts_sizeZero (kvs : List (Key × Val)) :
    ∀ t : SymTable, WFlen t → WFplace t → (kvs.map Prod.fst).Nodup →
    (∀ kv ∈ kvs, kcount kv.1 t = 0) →
    t.bucketSizeIndex = 0 → t.bindingsCount + kvs.length ≤ 509 →
    (runPuts kvs t).bucketSizeIndex = 0 := by
  induction kvs with
  | nil =>
    intro t _ _ _ _ hs _
    exact hs
  | cons kv rest ih =>
    intro t hwf hp hnd hfresh hs hbound
    obtain ⟨k, v⟩ := kv
    have hk0 : kcount k t = 0 := hfresh (k, v) (by simp)
    have hcc := chainContains_false_of_kcount_zero t k hk0
    have hlen : rest.length + 1 = ((k, v) :: rest).length := by simp
    have hexp : SymTable_tryExpand true t = t := by
      refine tryExpand_eq_self_of_le true t ?_
      rw [hs]
      have h509 : BUCKET_COUNTS.getD 0 0 = 509 := rfl
      rw [h509]
      omega
    have hwf' := put_success_WFlen true t k v hwf hcc
    have hp' := put_success_WFplace true t k v hwf hp hcc
    have hnd' : (rest.map Prod.fst).Nodup := (List.nodup_cons.mp (by simpa using hnd)).2
    have hknotin : k ∉ rest.map Prod.fst := (List.nodup_cons.mp (by simpa using hnd)).1
    have hfresh' : ∀ kv' ∈ rest, kcount kv'.1 (SymTable_put true true true t k v).2 = 0 := by
      intro kv' hkv'
      have hprev : kcount kv'.1 t = 0 := hfresh kv' (by simp [hkv'])
      have hne : keyIs kv'.1 ⟨k, v⟩ = false := by
        simp only [keyIs, decide_eq_false_iff_not]
        intro hcon
        refine hknotin ?_
        rw [hcon]
        exact List.mem_map_of_mem Prod.fst hkv'
      rw [kcount, put_success_tcountP true t k v (keyIs kv'.1) hwf hcc, hne]
      simp only [Bool.false_eq_true, if_false]
      rw [kcount] at hprev
      simpa using hprev
    have hsize' : (SymTable_put true true true t k v).2.bucketSizeIndex = 0 := by
      rw [put_success_sizeIndex true t k v hcc, hexp, hs]
    have hcount' : (SymTable_put true true true t k v).2.bindingsCount =
        t.bindingsCount + 1 := put_success_bindingsCount true t k v hcc
    rw [runPuts_cons]
    refine ih _ hwf' hp' hnd' hfresh' hsize' ?_
    rw [hcount']
    rw [← hlen] at hbound
    omega

/-! ## A concrete reachable table at the growth threshold -/

/-- 509 pairwise-distinct two-byte keys (bytes stay below 128). -/
def keyN (i : Nat) : Key := [i / 100 + 1, i % 100 + 1]

theorem keyN_inj : Function.Injective keyN := by
  intro i j h
  simp only [keyN, List.cons.injEq, and_true] at h
  omega

/-- The first `n` insertions `(keyN i, i + 1)`. -/
def pairsN (n : Nat) : List (Key × Val) := (List.range n).map (fun i => (keyN i, i + 1))

theorem pairsN_fst_nodup (n : Nat) : ((pairsN n).map Prod.fst).Nodup := by
  rw [pairsN, List.map_map]
  have h : (Prod.fst ∘ fun i : Nat => (keyN i, (i + 1 : Val))) = keyN := rfl
  rw [h]
  exact (List.nodup_range n).map keyN_inj

theorem pairsN_length (n : Nat) : (pairsN n).length = n := by
  rw [pairsN, List.length_map, List.length_range]

/-- The table reached from `SymTable_new` by `n` successful insertions of
distinct keys. -/
def mkTable (n : Nat) : SymTable := runPuts (pairsN n) SymTable_new

theorem mkTable_bindingsCount (n : Nat) : (mkTable n).bindingsCount = n := by
  have h := (runPuts_master (pairsN n) SymTable_new WFlen_new WFplace_new
    (pairsN_fst_nodup n) (fun kv _ => kcount_new kv.1)).2.2.2
  rw [mkTable, h, pairsN_length]
  show 0 + n = n
  omega

theorem mkTable_sizeIndex (n : Nat) (hn : n ≤ 509) : (mkTable n).bucketSizeIndex = 0 := by
  refine runPuts_sizeZero (pairsN n) SymTable_new WFlen_new WFplace_new
    (pairsN_fst_nodup n) (fun kv _ => kcount_new kv.1) rfl ?_
  rw [pairsN_length]
  show 0 + n ≤ 509
  omega

theorem mkTable_kcount_fresh (n : Nat) (k : Key) (hk : ∀ i, i < n → keyN i ≠ k) :
    kcount k (mkTable n) = 0 := by
  have h := (runPuts_master (pairsN n) SymTable_new WFlen_new WFplace_new
    (pairsN_fst_nodup n) (fun kv _ => kcount_new kv.1)).2.2.1 (keyIs k)
  rw [mkTable, kcount, h, tcountP_new]
  have h0 : (pairsN n).countP (fun kv => keyIs k ⟨kv.1, kv.2⟩) = 0 := by
    rw [List.countP_eq_zero]
    intro kv hkv hcon
    simp only [keyIs, decide_eq_true_eq] at hcon
    rw [pairsN, List.mem_map] at hkv
    obtain ⟨i, hi, hkv⟩ := hkv
    rw [List.mem_range] at hi
    refine hk i hi ?_
    rw [← hkv] at hcon
    exact hcon
  omega

/-! ## Operation traces (for the length invariant) -/

/-- One client-visible mutating call on the table. -/
inductive SymOp where
  | opPut (growOk nodeOk keyOk : Bool) (key : Key) (v : Val)
  | opRemove (key : Key)
  | opReplace (key : Key) (v : Val)

/-- Run one operation, counting successful puts and successful removes. -/
def traceStep (s : SymTable × Nat × Nat) (op : SymOp) : SymTable × Nat × Nat :=
  match op with
  | SymOp.opPut g nk ko key v =>
    let r := SymTable_put g nk ko s.1 key v
    (r.2, s.2.1 + (if r.1 = 1 then 1 else 0), s.2.2)
  | SymOp.opRemove key =>
    let r := SymTable_remove s.1 key
    (r.2, s.2.1, s.2.2 + (if r.1.isSome then 1 else 0))
  | SymOp.opReplace key v => ((SymTable_replace s.1 key v).2, s.2.1, s.2.2)

/-- Run a whole trace from a fresh table. -/
def runTrace (ops : List SymOp) : SymTable × Nat × Nat :=
  ops.foldl traceStep (SymTable_new, 0, 0)

/-- The trace invariant: well-formed lengths, an accurate counter, and
`bindingsCount = successful puts - successful removes`. -/
def traceInv (s : SymTable × Nat × Nat) : Prop :=
  WFlen s.1 ∧ WFcount s.1 ∧ s.1.bindingsCount + s.2.2 = s.2.1

theorem traceStep_inv (s : SymTable × Nat × Nat) (op : SymOp) (h : traceInv s) :
    traceInv (traceStep s op) := by
  obtain ⟨hwf, hwc, harith⟩ := h
  obtain ⟨t, sp, sr⟩ := s
  dsimp only at hwf hwc harith
  cases op with
  | opPut g nk ko key v =>
    by_cases hcc : chainContains (t.buckets.getD (SymTable_hash key (bucketCountOf t)) [])
        key = true
    · have hput := put_dup g nk ko t key v hcc
      show traceInv (_, _, _)
      simp only [traceStep]
      simp only [hput]
      exact ⟨hwf, hwc, by simpa using harith⟩
    · rw [Bool.not_eq_true] at hcc
      cases nk with
      | false =>
        have hput := put_nodeFail g ko t key v hcc
        show traceInv (_, _, _)
        simp only [traceStep]
        simp only [hput]
        refine ⟨tryExpand_WFlen g t hwf, ?_, ?_⟩
        · show (SymTable_tryExpand g t).bindingsCount = totalBindings (SymTable_tryExpand g t)
          rw [tryExpand_bindingsCount, totalBindings, tryExpand_tcountP]
          exact hwc
        · simp only [tryExpand_bindingsCount]
          simpa using harith
      | true =>
        cases ko with
        | false =>
          have hput := put_keyFail g t key v hcc
          show traceInv (_, _, _)
          simp only [traceStep]
          simp only [hput]
          refine ⟨tryExpand_WFlen g t hwf, ?_, ?_⟩
          · show (SymTable_tryExpand g t).bindingsCount = totalBindings (SymTable_tryExpand g t)
            rw [tryExpand_bindingsCount, totalBindings, tryExpand_tcountP]
            exact hwc
          · simp only [tryExpand_bindingsCount]
            simpa using harith
        | true =>
          have hres : (SymTable_put g true true t key v).1 = 1 := by
            rw [put_success g t key v hcc]
          show traceInv (_, _, _)
          simp only [traceStep]
          simp only [hres]
          refine ⟨put_success_WFlen g t key v hwf hcc, ?_, ?_⟩
          · show (SymTable_put g true true t key v).2.bindingsCount =
              totalBindings (SymTable_put g true true t key v).2
            rw [put_success_bindingsCount g t key v hcc, totalBindings,
              put_success_tcountP g t key v (fun _ => true) hwf hcc]
            rw [WFcount, totalBindings] at hwc
            simp
            omega
          · rw [put_success_bindingsCount g t key v hcc]
            simp
            omega
  | opRemove key =>
    cases hrc : removeChain (t.buckets.getD (SymTable_hash key (bucketCountOf t)) []) key with
    | none =>
      have hrem := remove_none t key hrc
      show traceInv (_, _, _)
      simp only [traceStep]
      simp only [hrem]
      exact ⟨hwf, hwc, by simpa using harith⟩
    | some p =>
      obtain ⟨v, c'⟩ := p
      have hrem := remove_some t key v c' hrc
      have hlt : SymTable_hash key (bucketCountOf t) < t.buckets.length :=
        hash_lt_of_WFlen t key hwf
      obtain ⟨_, hlen⟩ := removeChain_some_facts _ key v c' hrc
      have hset := tcountP_set (fun _ => true) t.buckets _ c' hlt
      rw [countP_trivial, countP_trivial] at hset
      have hge : (t.buckets.getD (SymTable_hash key (bucketCountOf t)) []).length ≤
          tcountP (fun _ => true) t.buckets := by
        have := countP_getD_le_tcountP (fun _ => true) t.buckets
          (SymTable_hash key (bucketCountOf t))
        rwa [countP_trivial] at this
      rw [WFcount, totalBindings] at hwc
      show traceInv (_, _, _)
      simp only [traceStep]
      simp only [hrem]
      refine ⟨⟨hwf.1, ?_⟩, ?_, ?_⟩
      · show (t.buckets.set _ c').length = _
        rw [List.length_set]
        exact hwf.2
      · show t.bindingsCount - 1 = tcountP (fun _ => true) (t.buckets.set _ c')
        omega
      · show t.bindingsCount - 1 + (sr + 1) = sp
        omega
  | opReplace key v =>
    cases hrc : replaceChain (t.buckets.getD (SymTable_hash key (bucketCountOf t)) [])
        key v with
    | none =>
      have hrep := replace_none t key v hrc
      show traceInv (_, _, _)
      simp only [traceStep]
      simp only [hrep]
      exact ⟨hwf, hwc, harith⟩
    | some p =>
      obtain ⟨old, c'⟩ := p
      have hrep := replace_some t key v old c' hrc
      have hlt : SymTable_hash key (bucketCountOf t) < t.buckets.length :=
        hash_lt_of_WFlen t key hwf
      have hlen := replaceChain_some_length _ key v old c' hrc
      have hset := tcountP_set (fun _ => true) t.buckets _ c' hlt
      rw [countP_trivial, countP_trivial] at hset
      rw [WFcount, totalBindings] at hwc
      show traceInv (_, _, _)
      simp only [traceStep]
      simp only [hrep]
      refine ⟨⟨hwf.1, ?_⟩, ?_, ?_⟩
      · show (t.buckets.set _ c').length = _
        rw [List.length_set]
        exact hwf.2
      · show t.bindingsCount = tcountP (fun _ => true) (t.buckets.set _ c')
        omega
      · exact harith

theorem runTrace_inv (ops : List SymOp) : traceInv (runTrace ops) := by
  rw [runTrace]
  have hstart : traceInv (SymTable_new, 0, 0) := by
    refine ⟨WFlen_new, ?_, rfl⟩
    show (0 : Nat) = totalBindings SymTable_new
    rw [totalBindings, tcountP_new]
  generalize hgen : (SymTable_new, (0 : Nat), (0 : Nat)) = s at hstart
  clear hgen
  induction ops generalizing s with
  | nil => exact hstart
  | cons op rest ih => exact ih _ (traceStep_inv s op hstart)

/-! ## The claims -/

/-- **C1.** For every well-formed table, key `k` and value `v`: a successful
`SymTable_put(t, k, v)` followed immediately by `SymTable_get(t, k)` returns
`v`; and after `SymTable_remove(t, k)` (given that the key's chain holds `k`
at most once, as in every reachable table) `SymTable_get(t, k)` returns `0`,
i.e. NULL/absent. -/
theorem C1_put_get_remove_roundtrip (t : SymTable) (k : Key) (v : Val)
    (hwf : WFlen t)
    (huniq : (t.buckets.getD (SymTable_hash k (bucketCountOf t)) []).countP (keyIs k) ≤ 1) :
    ((SymTable_put true true true t k v).1 = 1 →
      SymTable_get (SymTable_put true true true t k v).2 k = v) ∧
    SymTable_get (SymTable_remove t k).2 k = 0 := by
  constructor
  · intro hres
    by_cases hcc : chainContains (t.buckets.getD (SymTable_hash k (bucketCountOf t)) [])
        k = true
    · rw [put_dup true true true t k v hcc] at hres
      exact absurd hres (by simp)
    · rw [Bool.not_eq_true] at hcc
      rw [put_success true t k v hcc]
      have hwf1 := tryExpand_WFlen true t hwf
      have hlt := hash_lt_of_WFlen (SymTable_tryExpand true t) k hwf1
      show lookupChain (((SymTable_tryExpand true t).buckets.set
        (SymTable_hash k (bucketCountOf (SymTable_tryExpand true t)))
        (⟨k, v⟩ :: (SymTable_tryExpand true t).buckets.getD
          (SymTable_hash k (bucketCountOf (SymTable_tryExpand true t))) [])).getD
        (SymTable_hash k (bucketCountOf (SymTable_tryExpand true t))) []) k = v
      rw [getD_set_self _ _ _ hlt]
      show (if k = k then v else _) = v
      rw [if_pos rfl]
  · cases hrc : removeChain (t.buckets.getD (SymTable_hash k (bucketCountOf t)) []) k with
    | none =>
      rw [remove_none t k hrc]
      exact lookupChain_eq_zero_of_countP _ _ ((removeChain_eq_none_iff _ _).mp hrc)
    | some p =>
      obtain ⟨v0, c'⟩ := p
      rw [remove_some t k v0 c' hrc]
      obtain ⟨hc, _⟩ := removeChain_some_facts _ k v0 c' hrc
      have hc0 : c'.countP (keyIs k) = 0 := by omega
      have hlt := hash_lt_of_WFlen t k hwf
      show lookupChain ((t.buckets.set (SymTable_hash k (bucketCountOf t)) c').getD
        (SymTable_hash k (bucketCountOf t)) []) k = 0
      rw [getD_set_self _ _ _ hlt]
      exact lookupChain_eq_zero_of_countP _ _ hc0

/-- Witness for C1 at a concrete input. -/
theorem C1_put_get_remove_roundtrip_witness :
    SymTable_get (SymTable_put true true true SymTable_new [97] 5).2 [97] = 5 ∧
    SymTable_get (SymTable_remove SymTable_new [97]).2 [97] = 0 := by
  have h := C1_put_get_remove_roundtrip SymTable_new [97] 5 WFlen_new (by
    rw [show SymTable_new.buckets.getD (SymTable_hash [97] (bucketCountOf SymTable_new)) [] =
      ([] : List Binding) from rfl]
    simp)
  exact ⟨h.1 (by rfl), h.2⟩

/-- **C2.** Any sequence of `SymTable_put` calls with pairwise-distinct keys
(including sequences long enough to force one or more growth steps) loses,
duplicates and corrupts nothing: afterwards every inserted key is retrievable
by `SymTable_get` with its original value and occurs exactly once in the
table. -/
theorem C2_growth_preserves_content (kvs : List (Key × Val))
    (hnd : (kvs.map Prod.fst).Nodup) :
    ∀ kv ∈ kvs, SymTable_get (runPuts kvs SymTable_new) kv.1 = kv.2 ∧
      kcount kv.1 (runPuts kvs SymTable_new) = 1 := by
  obtain ⟨hwf, hp, hcount, _⟩ := runPuts_master kvs SymTable_new WFlen_new WFplace_new
    hnd (fun kv _ => kcount_new kv.1)
  intro kv hkv
  obtain ⟨k, v⟩ := kv
  obtain ⟨hc1, hc2⟩ := countP_keyIs_of_nodup kvs k v hkv hnd
  have hk : kcount k (runPuts kvs SymTable_new) = 1 := by
    rw [kcount, hcount (keyIs k), tcountP_new, hc1]
  have hb : bcount k v (runPuts kvs SymTable_new) = 1 := by
    rw [bcount, hcount (bindingIs k v), tcountP_new, hc2]
  exact ⟨get_of_unique _ k v hwf hp hk hb, hk⟩

/-- Witness for C2 at a concrete input. -/
theorem C2_growth_preserves_content_witness :
    SymTable_get (runPuts [([97], 1), ([98], 2)] SymTable_new) [98] = 2 ∧
    kcount [98] (runPuts [([97], 1), ([98], 2)] SymTable_new) = 1 := by
  have h := C2_growth_preserves_content [([97], 1), ([98], 2)] (by decide)
  exact h ([98], 2) (by simp)

/-- **C3.** Along every trace of put/remove/replace calls from
`SymTable_new`, `SymTable_getLength` equals the number of successful puts
minus the number of successful removes, and a fresh table has length 0. -/
theorem C3_length_invariant (ops : List SymOp) :
    SymTable_getLength (runTrace ops).1 = (runTrace ops).2.1 - (runTrace ops).2.2 ∧
    (runTrace ops).2.2 ≤ (runTrace ops).2.1 ∧
    SymTable_getLength SymTable_new = 0 := by
  obtain ⟨_, _, harith⟩ := runTrace_inv ops
  refine ⟨?_, by omega, rfl⟩
  rw [SymTable_getLength]
  omega

/-- **C4 — counterexample.** The "duplicate" result of `SymTable_put` is the
`int` 0, exactly the value returned on allocation failure: on a table holding
key `[97]`, a duplicate put of `[97]` and a put of the fresh key `[98]` whose
node allocation fails return the same result, so the duplicate report is not
distinct from the allocation-failure report. -/
theorem C4_counterexample :
    (SymTable_put true true true
      (SymTable_put true true true SymTable_new [97] 1).2 [97] 2).1 =
    (SymTable_put true false true
      (SymTable_put true true true SymTable_new [97] 1).2 [98] 2).1 ∧
    (SymTable_put true true true
      (SymTable_put true true true SymTable_new [97] 1).2 [97] 2).1 = 0 := by
  constructor
  · rfl
  · rfl

/-- **C4 (amended).** When the table already binds `k` (the key is found in
its bucket chain), `SymTable_put` leaves the table completely unchanged —
the stored value is not updated — and returns 0 (FALSE); this is the same
return value as an allocation failure, not a distinct signal. -/
theorem C4_duplicate_put_unchanged (g nk ko : Bool) (t t' : SymTable)
    (k k' : Key) (v v' : Val)
    (hdup : chainContains (t.buckets.getD (SymTable_hash k (bucketCountOf t)) []) k = true)
    (hfresh' : chainContains (t'.buckets.getD
      (SymTable_hash k' (bucketCountOf t')) []) k' = false) :
    SymTable_put g nk ko t k v = (0, t) ∧
    (SymTable_put g false true t' k' v').1 = 0 :=
  ⟨put_dup g nk ko t k v hdup, by rw [put_nodeFail g true t' k' v' hfresh']⟩

/-- Witness for the amended C4 at a concrete input. -/
theorem C4_duplicate_put_unchanged_witness :
    SymTable_put true true true (SymTable_put true true true SymTable_new [97] 1).2 [97] 2 =
      (0, (SymTable_put true true true SymTable_new [97] 1).2) ∧
    (SymTable_put true false true (SymTable_put true true true SymTable_new [97] 1).2
      [98] 2).1 = 0 :=
  C4_duplicate_put_unchanged true true true
    (SymTable_put true true true SymTable_new [97] 1).2
    (SymTable_put true true true SymTable_new [97] 1).2
    [97] [98] 2 2 (by rfl) (by rfl)

/-- **C5 — counterexample.** `mkTable 509` is the table reached from
`SymTable_new` by 509 successful puts of distinct keys; it sits exactly at
the growth threshold with capacity index 0.  A put of the fresh key
`keyN 509` whose binding-node allocation fails still reports failure (0),
yet the resulting table has capacity index 1: the expansion ran before the
failed allocation, so the container is *not* byte-for-byte unchanged. -/
theorem C5_counterexample :
    (SymTable_put true false true (mkTable 509) (keyN 509) 7).1 = 0 ∧
    (SymTable_put true false true (mkTable 509) (keyN 509) 7).2.bucketSizeIndex = 1 ∧
    (mkTable 509).bucketSizeIndex = 0 := by
  have hfresh : kcount (keyN 509) (mkTable 509) = 0 :=
    mkTable_kcount_fresh 509 (keyN 509) (fun i hi hcon => by
      have := keyN_inj hcon
      omega)
  have hcc := chainContains_false_of_kcount_zero (mkTable 509) (keyN 509) hfresh
  have hsize := mkTable_sizeIndex 509 (le_refl 509)
  have hcount := mkTable_bindingsCount 509
  have hput := put_nodeFail true true (mkTable 509) (keyN 509) 7 hcc
  refine ⟨by rw [hput], ?_, hsize⟩
  rw [hput]
  show (SymTable_tryExpand true (mkTable 509)).bucketSizeIndex = 1
  rw [tryExpand_sizeIndex, hsize, hcount]
  rw [if_pos ⟨by decide, by decide, rfl⟩]

/-- **C5 (amended).** On binding-node or key-copy allocation failure for a
non-duplicate key, `SymTable_put` reports 0 and the resulting table is
exactly `SymTable_tryExpand` of the original: the binding multiset and the
binding count are unchanged, but the capacity index and bucket array may
already have advanced by one growth step (they are unchanged only when no
growth was triggered). -/
theorem C5_alloc_failure_keeps_bindings (g ko : Bool) (t : SymTable) (k : Key) (v : Val)
    (hfresh : chainContains (t.buckets.getD (SymTable_hash k (bucketCountOf t)) []) k = false) :
    SymTable_put g false ko t k v = (0, SymTable_tryExpand g t) ∧
    SymTable_put g true false t k v = (0, SymTable_tryExpand g t) ∧
    totalBindings (SymTable_tryExpand g t) = totalBindings t ∧
    (SymTable_tryExpand g t).bindingsCount = t.bindingsCount :=
  ⟨put_nodeFail g ko t k v hfresh, put_keyFail g t k v hfresh,
    tryExpand_tcountP g t (fun _ => true), tryExpand_bindingsCount g t⟩

/-- Witness for the amended C5 at a concrete input. -/
theorem C5_alloc_failure_keeps_bindings_witness :
    (SymTable_put true false true SymTable_new [97] 5).1 = 0 ∧
    totalBindings (SymTable_tryExpand true SymTable_new) = totalBindings SymTable_new := by
  have h := C5_alloc_failure_keeps_bindings true true SymTable_new [97] 5 (by rfl)
  exact ⟨by rw [h.1], h.2.2.1⟩

/-- **C6.** An inserting `SymTable_put` advances the capacity index exactly
when `bindingsCount + 1` exceeds the current capacity and the index is not
at the end of `BUCKET_COUNTS`; growth is always by exactly one step in the
sequence (never skipping, never shrinking), and at the maximum index the
index never changes. -/
theorem C6_growth_policy (t : SymTable) (k : Key) (v : Val)
    (hfresh : chainContains (t.buckets.getD (SymTable_hash k (bucketCountOf t)) []) k = false) :
    ((SymTable_put true true true t k v).2.bucketSizeIndex =
      if t.bucketSizeIndex < BUCKET_COUNTS.length - 1 ∧
          BUCKET_COUNTS.getD t.bucketSizeIndex 0 < t.bindingsCount + 1
      then t.bucketSizeIndex + 1
      else t.bucketSizeIndex) ∧
    (t.bucketSizeIndex = BUCKET_COUNTS.length - 1 →
      (SymTable_put true true true t k v).2.bucketSizeIndex = t.bucketSizeIndex) := by
  have h1 := put_success_sizeIndex true t k v hfresh
  constructor
  · rw [h1, tryExpand_sizeIndex]
    by_cases hA : t.bucketSizeIndex < BUCKET_COUNTS.length - 1 ∧
        BUCKET_COUNTS.getD t.bucketSizeIndex 0 < t.bindingsCount + 1
    · rw [if_pos ⟨hA.1, hA.2, rfl⟩, if_pos hA]
    · rw [if_neg (fun hc => hA ⟨hc.1, hc.2.1⟩), if_neg hA]
  · intro hmax
    rw [h1, tryExpand_sizeIndex, if_neg (fun hc => by omega)]

/-- Witness for C6 at a concrete input. -/
theorem C6_growth_policy_witness :
    (SymTable_put true true true SymTable_new [97] 5).2.bucketSizeIndex =
      SymTable_new.bucketSizeIndex := by
  have h := (C6_growth_policy SymTable_new [97] 5 (by rfl)).1
  rw [h, if_neg (by decide)]

/-- **C7.** `SymTable_remove` is safe and correct in every chain position:
on an empty chain it returns NULL without dereferencing anything and leaves
the table untouched; on an unbound key it returns NULL and leaves the table
and `SymTable_getLength` unchanged; and when the key sits at the chain head
(`pre = []`) or at any non-head position it unlinks exactly that binding and
returns its value. -/
theorem C7_remove_safety :
    (∀ (t : SymTable) (k : Key),
      t.buckets.getD (SymTable_hash k (bucketCountOf t)) [] = [] →
      SymTable_remove t k = (none, t)) ∧
    (∀ (t : SymTable) (k : Key),
      chainContains (t.buckets.getD (SymTable_hash k (bucketCountOf t)) []) k = false →
      SymTable_remove t k = (none, t) ∧
      SymTable_getLength (SymTable_remove t k).2 = SymTable_getLength t) ∧
    (∀ (t : SymTable) (k : Key) (pre : List Binding) (v : Val) (post : List Binding),
      t.buckets.getD (SymTable_hash k (bucketCountOf t)) [] = pre ++ ⟨k, v⟩ :: post →
      (∀ b ∈ pre, b.key ≠ k) →
      SymTable_remove t k =
        (some v, { buckets := t.buckets.set (SymTable_hash k (bucketCountOf t)) (pre ++ post)
                   bindingsCount := t.bindingsCount - 1
                   bucketSizeIndex := t.bucketSizeIndex })) := by
  refine ⟨?_, ?_, ?_⟩
  · intro t k hchain
    refine remove_none t k ?_
    rw [hchain]
    rfl
  · intro t k hcc
    have hnone := (removeChain_eq_none_iff _ k).mpr ((chainContains_eq_false_iff _ k).mp hcc)
    have hr := remove_none t k hnone
    exact ⟨hr, by rw [hr]⟩
  · intro t k pre v post hchain hpre
    refine remove_some t k v (pre ++ post) ?_
    rw [hchain]
    exact removeChain_split pre k v post hpre

/-- Witness for C7 at concrete inputs: removal from an empty table, and
removal of a chain-head binding. -/
theorem C7_remove_safety_witness :
    SymTable_remove SymTable_new [97] = (none, SymTable_new) ∧
    (SymTable_remove (SymTable_put true true true SymTable_new [97] 5).2 [97]).1 = some 5 := by
  have h := C7_remove_safety
  constructor
  · exact h.1 SymTable_new [97] (by rfl)
  · have hc : (SymTable_put true true true SymTable_new [97] 5).2.buckets.getD
        (SymTable_hash [97]
          (bucketCountOf (SymTable_put true true true SymTable_new [97] 5).2)) [] =
        [] ++ (⟨[97], 5⟩ : Binding) :: [] := by rfl
    have hr := h.2.2 _ [97] [] 5 [] hc (fun b hb => absurd hb (List.not_mem_nil b))
    rw [hr]

/-- **C8 — evaluation at the failing input.** On a freshly created table,
`Remove("a")` (key byte 97): the hash variant returns NULL and leaves the
table unchanged, but the linked-list variant reads `curr->key` from the NULL
chain head before any NULL check — undefined behavior, modelled as `none` —
so the two variants do not return identical results on this sequence. -/
theorem C8_list_remove_crash :
    ListImpl.SymTable_remove ListImpl.SymTable_new [97] = none ∧
    SymTable_remove SymTable_new [97] = (none, SymTable_new) := by
  constructor
  · rfl
  · exact remove_none SymTable_new [97] (by rfl)

/-- **C9.** `SymTable_hash` is a pure function of the key bytes and the
bucket count: it reduces the accumulator `hashAcc` modulo the bucket count;
the result is always below a positive bucket count; the accumulator starts
at 0 (so the empty string hashes to 0) and each byte updates it by
`h * 65599 + byte` modulo the 64-bit word. -/
theorem C9_hash_spec (k : Key) (n : Nat) (hn : 0 < n) :
    SymTable_hash k n = hashAcc k % n ∧
    SymTable_hash k n < n ∧
    hashAcc [] = 0 ∧
    SymTable_hash [] n = 0 ∧
    (∀ b : Nat, hashAcc (k ++ [b]) = (hashAcc k * 65599 + b) % wordModulus) := by
  refine ⟨rfl, Nat.mod_lt _ hn, rfl, ?_, ?_⟩
  · show (0 : Nat) % n = 0
    exact Nat.zero_mod n
  · intro b
    rw [hashAcc, hashAcc, List.foldl_append]
    rfl

/-- Witness for C9 at a concrete input. -/
theorem C9_hash_spec_witness :
    SymTable_hash [104, 105] 509 < 509 ∧ hashAcc [] = 0 :=
  ⟨(C9_hash_spec [104, 105] 509 (by decide)).2.1,
   (C9_hash_spec [104, 105] 509 (by decide)).2.2.1⟩

/-- **C10.** The hash variant's `SymTable_put` accepts the NULL value (it
asserts only the table and the key): putting `k ↦ NULL` on a table where `k`
is fresh succeeds, after which `SymTable_get` returns NULL — exactly what it
returns for the absent key before the put — while `SymTable_contains` still
reports 1. -/
theorem C10_null_value (t : SymTable) (k : Key) (hwf : WFlen t)
    (hfresh : chainContains (t.buckets.getD (SymTable_hash k (bucketCountOf t)) []) k = false) :
    (SymTable_put true true true t k 0).1 = 1 ∧
    SymTable_get (SymTable_put true true true t k 0).2 k = 0 ∧
    SymTable_get t k = 0 ∧
    SymTable_contains (SymTable_put true true true t k 0).2 k = 1 := by
  have hput := put_success true t k 0 hfresh
  have hwf1 := tryExpand_WFlen true t hwf
  have hlt := hash_lt_of_WFlen (SymTable_tryExpand true t) k hwf1
  refine ⟨by rw [hput], ?_, ?_, ?_⟩
  · rw [hput]
    show lookupChain (((SymTable_tryExpand true t).buckets.set
      (SymTable_hash k (bucketCountOf (SymTable_tryExpand true t)))
      (⟨k, 0⟩ :: (SymTable_tryExpand true t).buckets.getD
        (SymTable_hash k (bucketCountOf (SymTable_tryExpand true t))) [])).getD
      (SymTable_hash k (bucketCountOf (SymTable_tryExpand true t))) []) k = 0
    rw [getD_set_self _ _ _ hlt]
    show (if k = k then 0 else _) = (0 : Val)
    rw [if_pos rfl]
  · exact lookupChain_eq_zero_of_countP _ _ ((chainContains_eq_false_iff _ _).mp hfresh)
  · rw [hput]
    show (if chainContains (((SymTable_tryExpand true t).buckets.set
      (SymTable_hash k (bucketCountOf (SymTable_tryExpand true t)))
      (⟨k, 0⟩ :: (SymTable_tryExpand true t).buckets.getD
        (SymTable_hash k (bucketCountOf (SymTable_tryExpand true t))) [])).getD
      (SymTable_hash k (bucketCountOf (SymTable_tryExpand true t))) []) k
      then (1 : Nat) else 0) = 1
    rw [getD_set_self _ _ _ hlt]
    show (if (if k = k then true else _) = true then (1 : Nat) else 0) = 1
    rw [if_pos rfl]
    rfl

/-- Witness for C10 at a concrete input. -/
theorem C10_null_value_witness :
    (SymTable_put true true true SymTable_new [97] 0).1 = 1 ∧
    SymTable_get (SymTable_put true true true SymTable_new [97] 0).2 [97] = 0 ∧
    SymTable_contains (SymTable_put true true true SymTable_new [97] 0).2 [97] = 1 := by
  have h := C10_null_value SymTable_new [97] WFlen_new (by rfl)
  exact ⟨h.1, h.2.1, h.2.2.2⟩
